import Mathlib

/-!
Verification of the hierarchical index, search filter, view materializer and
selection exporter of `src/filetree-search-qt/search-model.{h,cc}`.

The C++ structures are shallowly embedded: `SimpleHash<Key, Item>` becomes an
insertion-ordered `List Item` (the key of a child is recoverable from its own
`field`/`name`, mirroring how the code always inserts `Item (key.field,
key.name, parent)` under `key`), libaudcore `String` null is identified with
the empty string, and `Index<int>` becomes `List Nat`.
-/

namespace FiletreeSearch

/-- The `SearchField` enumeration of search-model.h (declaration order fixes
the rank used by `item_compare`). -/
inductive SearchField where
  | Genre
  | Artist
  | Album
  | HiddenAlbum
  | Title
deriving DecidableEq, Repr

/-- Numeric rank of a `SearchField`, i.e. its position in the enumeration. -/
def fieldRank : SearchField → Nat
  | .Genre => 0
  | .Artist => 1
  | .Album => 2
  | .HiddenAlbum => 3
  | .Title => 4

/-- The `Key` struct of search-model.h: a `(field, name)` pair. -/
structure Key where
  field : SearchField
  name : String
deriving DecidableEq, Repr

/-- Models `str_tolower_utf8`: the case-folded copy of a name, computed once
at `Item` construction. -/
def foldName (s : String) : String := s.toLower

/-- The `Item` struct of search-model.h.  The `parent` back-pointer is not
represented (it is derivable from the tree position); `children` is the
insertion-ordered content of the `SimpleHash<Key, Item>`. -/
inductive Item where
  | mk (field : SearchField) (name : String) (folded : String)
       (matchIds : List Nat) (visible : Bool) (children : List Item)

def Item.field : Item → SearchField
  | .mk f _ _ _ _ _ => f

def Item.name : Item → String
  | .mk _ n _ _ _ _ => n

def Item.folded : Item → String
  | .mk _ _ fo _ _ _ => fo

def Item.matchIds : Item → List Nat
  | .mk _ _ _ m _ _ => m

def Item.visible : Item → Bool
  | .mk _ _ _ _ v _ => v

def Item.children : Item → List Item
  | .mk _ _ _ _ _ cs => cs

/-- Does a character list start with the given needle? (helper for `strstr`). -/
def listStarts : List Char → List Char → Bool
  | _, [] => true
  | [], _ :: _ => false
  | a :: as, b :: bs => a = b && listStarts as bs

/-- Does a character list contain the needle as a contiguous run? -/
def listHasSub : List Char → List Char → Bool
  | [], needle => needle.isEmpty
  | a :: as, needle => listStarts (a :: as) needle || listHasSub as needle

/-- Models C `strstr (haystack, needle) != nullptr`: substring containment
(true for the empty needle, as in C). -/
def strstr (haystack needle : String) : Bool :=
  listHasSub haystack.toList needle.toList

/-- Three-way lexicographic comparison of character lists (the usual strcmp
walk). -/
def cmpChars : List Char → List Char → Int
  | [], [] => 0
  | [], _ :: _ => -1
  | _ :: _, [] => 1
  | a :: as, b :: bs =>
    if a < b then -1 else if b < a then 1 else cmpChars as bs

/-- Models libaudcore `str_compare` (a strcmp-style three-way comparison;
locale awareness is abstracted to code-point string order). -/
def strCompare (a b : String) : Int :=
  cmpChars a.toList b.toList

/-- The comparator lambda used verbatim at search-model.cc:197, :240 and :317:
`str_compare (a->name, b->name) > 0`, read as a strict "comes before"
predicate by the sort. -/
def codeLt (a b : Item) : Bool := strCompare a.name b.name > 0

/-- Stable insertion step of `Index::sort` under a strict predicate: the new
element is placed before the first element it is `lt`-before. -/
def insertBy (lt : Item → Item → Bool) (x : Item) : List Item → List Item
  | [] => [x]
  | y :: ys => if lt x y then x :: y :: ys else y :: insertBy lt x ys

/-- Models `Index<Item *>::sort` with a strict comparator: stable insertion
sort. -/
def sortBy (lt : Item → Item → Bool) : List Item → List Item
  | [] => []
  | x :: xs => insertBy lt x (sortBy lt xs)

/-- The child materialization of `SearchModel::index`
(search-model.cc:190-205): visible children, in hash order, sorted with the
name-only comparator. -/
def materializeChildren (it : Item) : List Item :=
  sortBy codeLt (it.children.filter Item.visible)

/-- `SearchModel::build_root_items` (search-model.cc:309-320): every database
item (no visibility filter in the code), sorted with the same name-only
comparator. -/
def buildRootItems (db : List Item) : List Item :=
  sortBy codeLt db

/-- The mutable state of `SearchModel` relevant to the index: the database,
the cached root items and the hidden-item counter. -/
structure SearchModel where
  database : List Item
  rootItems : List Item
  hiddenItems : Nat

mutual

/-- The recursive `mark_matches` closure of `SearchModel::do_search`
(search-model.cc:476-499): recompute the `m_search_visible` flag of an item
and of its whole subtree. -/
def markItem (terms : List String) : Item → Item
  | .mk f n fo m _ cs =>
    let cs2 := markList terms cs
    Item.mk f n fo m
      ((terms.any fun t => strstr fo t) || cs2.any Item.visible || terms.isEmpty)
      cs2

/-- `mark_matches` applied to every item of a hash, in order. -/
def markList (terms : List String) : List Item → List Item
  | [] => []
  | c :: cs => markItem terms c :: markList terms cs

end

/-- `SearchModel::do_search` (search-model.cc:471-508): reset the hidden-item
counter, recompute visibility over the whole database, rebuild the root
items. -/
def doSearch (terms : List String) (m : SearchModel) : SearchModel :=
  let db := markList terms m.database
  { database := db, rootItems := buildRootItems db, hiddenItems := 0 }

/-- `SearchModel::num_hidden_items` (search-model.h:85). -/
def numHiddenItems (m : SearchModel) : Nat := m.hiddenItems

/-- Does an item sit under the given key? (`SimpleHash::lookup` equality test:
`Key::operator==`; the stored item's field/name always equal its key's). -/
def keyMatches (k : Key) (c : Item) : Bool :=
  c.field = k.field && c.name = k.name

/-- `SimpleHash::lookup`: the first (and by construction only) child under the
key. -/
def findChild (k : Key) (items : List Item) : Option Item :=
  items.find? (keyMatches k)

/-- The lookup-or-insert step shared by `add_to_database` and
`create_database`: replace the first child under the key with its update, or
append the freshly constructed child (`SimpleHash::add`). -/
def updOrIns (k : Key) (upd : Item → Item) (fresh : Item) : List Item → List Item
  | [] => [fresh]
  | c :: cs => if keyMatches k c then upd c :: cs else c :: updOrIns k upd fresh cs

/-- `SearchModel::add_to_database` (search-model.cc:330-349): walk the key
chain, skipping keys with a null name (`if (! key.name) continue`, null
modelled as ""), appending the entry id to every traversed node's match list
and descending into its children. -/
def addToDb (e : Nat) : List Key → List Item → List Item
  | [], db => db
  | k :: ks, db =>
    if k.name = "" then addToDb e ks db
    else
      updOrIns k
        (fun c => Item.mk c.field c.name c.folded (c.matchIds ++ [e]) c.visible
          (addToDb e ks c.children))
        (Item.mk k.field k.name (foldName k.name) [e] true (addToDb e ks []))
        db

/-- The per-entry chain walk of `SearchModel::create_database`
(search-model.cc:395-417): the final path segment becomes a `Title` node and
receives the entry id; every earlier segment becomes a `Genre` (folder) node
and its match list is left alone. -/
def addPath (e : Nat) : List String → List Item → List Item
  | [], db => db
  | p :: ps, db =>
    let f := if ps.isEmpty then SearchField.Title else SearchField.Genre
    updOrIns ⟨f, p⟩
      (fun c => Item.mk c.field c.name c.folded
        (if f = SearchField.Title then c.matchIds ++ [e] else c.matchIds)
        c.visible (addPath e ps c.children))
      (Item.mk f p (foldName p)
        (if f = SearchField.Title then [e] else []) true (addPath e ps []))
      db

/-- Value of one hex digit, for percent decoding. -/
def hexVal (c : Char) : Option Nat :=
  if '0' ≤ c ∧ c ≤ '9' then some (c.toNat - '0'.toNat)
  else if 'a' ≤ c ∧ c ≤ 'f' then some (c.toNat - 'a'.toNat + 10)
  else if 'A' ≤ c ∧ c ≤ 'F' then some (c.toNat - 'A'.toNat + 10)
  else none

/-- Models `QUrl::fromPercentEncoding` at the character level: a valid `%XY`
run becomes the character with code `16*X + Y`; anything else is kept. -/
def percentDecodeList : List Char → List Char
  | '%' :: a :: b :: rest =>
    match hexVal a, hexVal b with
    | some x, some y => Char.ofNat (16 * x + y) :: percentDecodeList rest
    | _, _ => '%' :: percentDecodeList (a :: b :: rest)
  | c :: rest => c :: percentDecodeList rest
  | [] => []

def percentDecode (s : String) : String :=
  String.mk (percentDecodeList s.toList)

/-- Remove a leading `file://`, as both normalization paths of
`create_database` do. -/
def stripScheme (s : String) : String :=
  if s.startsWith "file://" then s.drop 7 else s

/-- The base-directory normalization of `create_database`
(search-model.cc:357-371); a null base path (modelled "") stays empty. -/
def normBase (basePath : String) : String :=
  if basePath = "" then ""
  else
    let b := stripScheme (percentDecode basePath)
    if b.endsWith "/" then b.dropRight 1 else b

/-- The per-entry path normalization of `create_database`
(search-model.cc:379-393): decode, strip the scheme, strip the base directory
when it applies, split on `/` skipping empty parts. -/
def entryParts (baseDir : String) (filename : String) : List String :=
  let p := stripScheme (percentDecode filename)
  let p :=
    if baseDir ≠ "" && p.startsWith (baseDir ++ "/")
    then p.drop (baseDir.length + 1) else p
  (p.splitOn "/").filter (fun s => s ≠ "")

/-- One iteration of the `create_database` entry loop: resolve the filename
of entry `e` (a null filename skips the entry, `if (! filename) continue`)
and walk its normalized path into the database. -/
def createStep (playlist : List (Option String)) (baseDir : String)
    (db : List Item) (e : Nat) : List Item :=
  match playlist.get? e with
  | some (some fn) => addPath e (entryParts baseDir fn) db
  | _ => db

/-- `SearchModel::create_database` (search-model.cc:351-423): reset, then walk
every playlist entry; an entry whose filename cannot be resolved
(`entry_filename` null, modelled `none`) is skipped. -/
def createDatabase (playlist : List (Option String)) (basePath : String) :
    List Item :=
  (List.range playlist.length).foldl (createStep playlist (normBase basePath)) []

/-- Every entry id held in some match list of the forest. -/
def collectIds : List Item → List Nat
  | [] => []
  | .mk _ _ _ m _ cs :: rest => m ++ collectIds cs ++ collectIds rest

/-- The key chain `create_database` uses for a segment list: `Genre` for every
segment but the last, `Title` for the last. -/
def pathKeys : List String → List Key
  | [] => []
  | [p] => [⟨SearchField.Title, p⟩]
  | p :: ps => ⟨SearchField.Genre, p⟩ :: pathKeys ps

/-- The key chain of the folder segments only. -/
def genreKeys (parts : List String) : List Key :=
  parts.map fun p => ⟨SearchField.Genre, p⟩

/-- Walk a key chain through nested children maps; the node reached by the
last key. -/
def lookupChain : List Key → List Item → Option Item
  | [], _ => none
  | [k], items => findChild k items
  | k :: ks, items =>
    match findChild k items with
    | none => none
    | some c => lookupChain ks c.children

/-- The match list at a chain, empty when the chain is absent. -/
def prevMatches (ks : List Key) (db : List Item) : List Nat :=
  match lookupChain ks db with
  | some c => c.matchIds
  | none => []

/-- Does every (non-skipped) key of the chain resolve to a node? -/
def chainIn : List Key → List Item → Bool
  | [], _ => true
  | k :: ks, db =>
    if k.name = "" then chainIn ks db
    else
      match findChild k db with
      | some c => chainIn ks c.children
      | none => false

/-- The node skeleton: an item tree with match lists and visibility erased,
for stating that an operation creates no nodes. -/
inductive Skel where
  | mk (field : SearchField) (name : String) (children : List Skel)

mutual

/-- Skeleton of one item. -/
def skelOf : Item → Skel
  | .mk f n _ _ _ cs => Skel.mk f n (skelList cs)

/-- Skeleton of a forest. -/
def skelList : List Item → List Skel
  | [] => []
  | c :: cs => skelOf c :: skelList cs

end

/-- The term loop of `search_recurse` (search-model.cc:434-443) on one item:
`k` is the index of the current term, whose bit is `2 ^ k` (the code's
`bit <<= 1` walk); a term already found is skipped, a term found in the folded
name clears its bit, and a miss on a childless item breaks out early. -/
def termLoop (fo : String) (hasKids : Bool) : List String → Nat → Nat → Nat
  | [], _k, mask => mask
  | t :: ts, k, mask =>
    if mask &&& 2 ^ k = 0 then termLoop fo hasKids ts (k + 1) mask
    else if strstr fo t then termLoop fo hasKids ts (k + 1) (mask ^^^ 2 ^ k)
    else if hasKids then termLoop fo hasKids ts (k + 1) mask
    else mask

/-- `search_recurse` (search-model.cc:426-452): flattened result collection.
An item is appended when its remaining-term mask is cleared, it does not have
exactly one child, and it is not a `HiddenAlbum`; children are searched with
the narrowed mask. -/
def searchRecurse (terms : List String) (mask : Nat) : List Item → List Item
  | [] => []
  | Item.mk f n fo m v cs :: rest =>
    let nm := termLoop fo (! cs.isEmpty) terms 0 mask
    (if nm = 0 && cs.length ≠ 1 && f ≠ SearchField.HiddenAlbum
      then [Item.mk f n fo m v cs] else [])
      ++ searchRecurse terms nm cs ++ searchRecurse terms mask rest

/-- A descent path through nested children maps: `PathTo dom anc it` holds
when `anc` lists the strict ancestors of `it` inside the forest `dom`, from
the outermost down. -/
inductive PathTo : List Item → List Item → Item → Prop where
  | base {dom : List Item} {it : Item} : it ∈ dom → PathTo dom [] it
  | step {dom : List Item} {p : Item} {anc : List Item} {it : Item} :
      p ∈ dom → PathTo p.children anc it → PathTo dom (p :: anc) it

mutual

/-- An item together with all items of its subtree. -/
def selfAndDesc : Item → List Item
  | .mk f n fo m v cs => Item.mk f n fo m v cs :: descList cs

/-- All items of a forest, subtrees included. -/
def descList : List Item → List Item
  | [] => []
  | c :: cs => selfAndDesc c ++ descList cs

end

/-- The exporter state of `SearchModel::mimeData`: the produced entry list
(one url per entry id), the `seen_entries` set (as the insertion-ordered list
of ids), and the sequence of `select_entry (id, true)` calls issued after the
initial `select_all (false)`. -/
structure ExpSt where
  urls : List Nat
  seen : List Nat
  sel : List Nat

/-- One guarded export step (search-model.cc:250-258 and :278-286): a not-yet
seen entry is recorded, its url appended and its selection side effect
issued; a seen entry is ignored. -/
def addEntry (st : ExpSt) (e : Nat) : ExpSt :=
  if e ∈ st.seen then st
  else { urls := st.urls ++ [e], seen := st.seen ++ [e], sel := st.sel ++ [e] }

/-- Export a whole match list, in order. -/
def addEntries (st : ExpSt) (ms : List Nat) : ExpSt :=
  ms.foldl addEntry st

/-- The body of the recursive `collect_files` closure of `mimeData`
(search-model.cc:233-266), applied to an already sorted child list: a `Title`
child with matches exports them; any other child with children is recursed
into (with its own children sorted). -/
def collectList : List Item → ExpSt → ExpSt
  | [], st => st
  | Item.mk f _ _ m _ cs :: rest, st =>
    let st2 :=
      if f = SearchField.Title && ! m.isEmpty then addEntries st m
      else if ! cs.isEmpty then collectList (sortBy codeLt cs) st
      else st
    collectList rest st2
termination_by l => sizeOf l
decreasing_by
  · have h1 : ∀ (x : Item) (l : List Item),
        sizeOf (insertBy codeLt x l) = 1 + sizeOf x + sizeOf l := by
      intro x l
      induction l with
      | nil => simp [insertBy]
      | cons y ys ih =>
        simp only [insertBy]
        split <;> simp [ih] <;> omega
    have h2 : ∀ l : List Item, sizeOf (sortBy codeLt l) = sizeOf l := by
      intro l
      induction l with
      | nil => rfl
      | cons x xs ih => simp [sortBy, h1, ih]
    simp only [h2]
    simp
    omega
  · simp

/-- One selected index of the `mimeData` loop (search-model.cc:268-293): a
`Title` item with matches is exported directly, a folder item is walked by
`collect_files`. -/
def exportStep (st : ExpSt) (it : Item) : ExpSt :=
  if it.field = SearchField.Title && ! it.matchIds.isEmpty then
    addEntries st it.matchIds
  else if ! it.children.isEmpty then collectList (sortBy codeLt it.children) st
  else st

/-- `SearchModel::mimeData` (search-model.cc:225-300): after `select_all
(false)` clears the host selection, process each selected item in turn. -/
def mimeDataExport (items : List Item) : ExpSt :=
  items.foldl exportStep { urls := [], seen := [], sel := [] }

/-- Adjacent-free pairwise check: does the relation hold for every earlier /
later pair of the list? -/
def pairsOK (r : Item → Item → Bool) : List Item → Bool
  | [] => true
  | x :: xs => xs.all (r x) && pairsOK r xs

/-- The category-rank comparison the claim's sort order makes primary. -/
def rankLeB (a b : Item) : Bool :=
  decide (fieldRank a.field ≤ fieldRank b.field)

/-- A node with three visible children whose categories and names disagree
about the order: `Title "a"`, `Genre "b"`, `Title "c"`. -/
def c1Parent : Item :=
  Item.mk SearchField.Genre "root" "root" [] true
    [Item.mk SearchField.Title "a" "a" [0] true [],
     Item.mk SearchField.Genre "b" "b" [] true [],
     Item.mk SearchField.Title "c" "c" [1] true []]

/-- A database of one top-level node named "abc" holding entry 0. -/
def c2Item : Item := Item.mk SearchField.Genre "abc" "abc" [0] true []

/-- A model whose database is just `c2Item`. -/
def c2Model : SearchModel :=
  { database := [c2Item], rootItems := [c2Item], hiddenItems := 0 }

/-- A single node named "rock", used to exercise the visibility contract. -/
def rockItem : Item := Item.mk SearchField.Genre "rock" "rock" [] true []

/-- A model whose database is just `rockItem`. -/
def rockModel : SearchModel :=
  { database := [rockItem], rootItems := [rockItem], hiddenItems := 0 }

/-- A childless `Genre` leaf, used to exercise `search_recurse`. -/
def leafItem : Item := Item.mk SearchField.Genre "x" "x" [] true []

/- ------------------------------------------------------------------ -/
/- Lemmas on the sort used by the materializer.                        -/
/- ------------------------------------------------------------------ -/

theorem cmpChars_nil_le (l : List Char) : cmpChars [] l ≤ 0 := by
  cases l <;> simp [cmpChars]

theorem cmpChars_neg : ∀ a b : List Char, cmpChars b a = -cmpChars a b
  | [], [] => rfl
  | [], _ :: _ => rfl
  | _ :: _, [] => rfl
  | a :: as, b :: bs => by
    simp only [cmpChars]
    rcases lt_trichotomy a b with h | h | h
    · simp [h, lt_asymm h]
    · subst h
      simp [lt_irrefl, cmpChars_neg as bs]
    · simp [h, lt_asymm h]

theorem cmpChars_le_trans : ∀ a b c : List Char,
    cmpChars a b ≤ 0 → cmpChars b c ≤ 0 → cmpChars a c ≤ 0
  | [], _, c, _, _ => cmpChars_nil_le c
  | _ :: _, [], _, h1, _ => absurd h1 (by simp [cmpChars])
  | _ :: _, _ :: _, [], _, h2 => absurd h2 (by simp [cmpChars])
  | a :: as, b :: bs, c :: cs, h1, h2 => by
    simp only [cmpChars] at h1 h2 ⊢
    rcases lt_trichotomy a b with hab | hab | hab
    · rcases lt_trichotomy b c with hbc | hbc | hbc
      · simp [lt_trans hab hbc]
      · have hac : a < c := hbc ▸ hab
        simp [hac]
      · simp [lt_asymm hbc, hbc] at h2
    · subst hab
      rw [if_neg (lt_irrefl a), if_neg (lt_irrefl a)] at h1
      rcases lt_trichotomy a c with hac | hac | hac
      · simp [hac]
      · subst hac
        rw [if_neg (lt_irrefl a), if_neg (lt_irrefl a)] at h2 ⊢
        exact cmpChars_le_trans as bs cs h1 h2
      · simp [lt_asymm hac, hac] at h2
    · simp [lt_asymm hab, hab] at h1

theorem strCompare_neg (a b : String) : strCompare b a = -strCompare a b :=
  cmpChars_neg a.toList b.toList

theorem strCompare_le_trans {a b c : String} (h1 : strCompare a b ≤ 0)
    (h2 : strCompare b c ≤ 0) : strCompare a c ≤ 0 :=
  cmpChars_le_trans a.toList b.toList c.toList h1 h2

theorem insertBy_perm (lt : Item → Item → Bool) (x : Item) :
    ∀ l : List Item, (insertBy lt x l).Perm (x :: l)
  | [] => .refl _
  | y :: ys => by
    simp only [insertBy]
    split
    · exact .refl _
    · exact ((insertBy_perm lt x ys).cons y).trans (List.Perm.swap x y ys)

theorem sortBy_perm (lt : Item → Item → Bool) : ∀ l : List Item,
    (sortBy lt l).Perm l
  | [] => .refl _
  | x :: xs => (insertBy_perm lt x (sortBy lt xs)).trans ((sortBy_perm lt xs).cons x)

theorem mem_insertBy {lt : Item → Item → Bool} {x y : Item} {l : List Item} :
    y ∈ insertBy lt x l ↔ y = x ∨ y ∈ l := by
  have h := (insertBy_perm lt x l).mem_iff (a := y)
  simpa using h

theorem codeLt_true {x y : Item} (h : codeLt x y = true) :
    strCompare y.name x.name ≤ 0 := by
  have hp : strCompare x.name y.name > 0 := of_decide_eq_true h
  rw [strCompare_neg]
  omega

theorem codeLt_false {x y : Item} (h : codeLt x y = false) :
    strCompare x.name y.name ≤ 0 := by
  have hp : ¬ strCompare x.name y.name > 0 := of_decide_eq_false h
  omega

theorem insertBy_sorted (x : Item) : ∀ l : List Item,
    l.Pairwise (fun a b => strCompare b.name a.name ≤ 0) →
    (insertBy codeLt x l).Pairwise (fun a b => strCompare b.name a.name ≤ 0)
  | [], _ => by simp [insertBy]
  | y :: ys, h => by
    rcases List.pairwise_cons.mp h with ⟨hy, hys⟩
    simp only [insertBy]
    by_cases hlt : codeLt x y = true
    · rw [if_pos hlt]
      have hyx := codeLt_true hlt
      refine List.pairwise_cons.mpr ⟨?_, h⟩
      intro z hz
      rcases List.mem_cons.mp hz with rfl | hzys
      · exact hyx
      · exact strCompare_le_trans (hy z hzys) hyx
    · rw [if_neg (by simpa using hlt)]
      have hxy := codeLt_false (by simpa using hlt)
      refine List.pairwise_cons.mpr ⟨?_, insertBy_sorted x ys hys⟩
      intro z hz
      rcases mem_insertBy.mp hz with rfl | hzys
      · exact hxy
      · exact hy z hzys

theorem sortBy_sorted : ∀ l : List Item,
    (sortBy codeLt l).Pairwise (fun a b => strCompare b.name a.name ≤ 0)
  | [] => by simp [sortBy]
  | x :: xs => insertBy_sorted x _ (sortBy_sorted xs)

/- ------------------------------------------------------------------ -/
/- C1                                                                  -/
/- ------------------------------------------------------------------ -/

/-- C1 counterexample: at `c1Parent` the materialized children come out
`[Title "c", Genre "b", Title "a"]`, so the sibling pair with categories
`Title`/`Genre` is NOT ordered with the lower category rank first — the
claimed category-primary total order does not hold. -/
theorem c1_category_order_fails :
    pairsOK rankLeB (materializeChildren c1Parent) = false := by
  rfl

/-- C1 amended: the materializer sorts by name only.  For every node the
materialized child sequence is a permutation of its visible children and is
ordered by descending name (each earlier name is ≥ each later name, per the
inverted `str_compare … > 0` comparator); the root list likewise is a
name-descending permutation of the whole database, category rank playing no
role. -/
theorem c1_name_only_sort (it : Item) (db : List Item) :
    ((materializeChildren it).Perm (it.children.filter Item.visible) ∧
      (materializeChildren it).Pairwise
        (fun a b => strCompare b.name a.name ≤ 0)) ∧
    ((buildRootItems db).Perm db ∧
      (buildRootItems db).Pairwise
        (fun a b => strCompare b.name a.name ≤ 0)) :=
  ⟨⟨sortBy_perm codeLt _, sortBy_sorted _⟩,
   ⟨sortBy_perm codeLt db, sortBy_sorted db⟩⟩

/- ------------------------------------------------------------------ -/
/- C2                                                                  -/
/- ------------------------------------------------------------------ -/

/-- C2 (code bug): after `do_search (["zzz"])` on a database whose only
top-level node "abc" matches nothing, that node is marked not visible and yet
remains in `root_items` — `build_root_items` appends every database item
without consulting `m_search_visible`, contradicting its own call-site
comment "Rebuild root items with only visible ones". -/
theorem c2_hidden_root_retained :
    ((doSearch ["zzz"] c2Model).rootItems.any fun it => ! it.visible) = true ∧
    (doSearch ["zzz"] c2Model).rootItems.length = 1 := by
  constructor <;> rfl

/- ------------------------------------------------------------------ -/
/- Tree induction and the visibility contract (C3).                    -/
/- ------------------------------------------------------------------ -/

theorem Item.inductionOn (P : Item → Prop)
    (h : ∀ f n fo m v cs, (∀ c ∈ cs, P c) → P (Item.mk f n fo m v cs)) :
    ∀ it : Item, P it := by
  have key : ∀ (k : Nat) (it : Item), sizeOf it ≤ k → P it := by
    intro k
    induction k with
    | zero =>
      intro it hle
      cases it with
      | mk f n fo m v cs => simp [Item.mk.sizeOf_spec] at hle
    | succ k ih =>
      intro it hle
      cases it with
      | mk f n fo m v cs =>
        refine h f n fo m v cs ?_
        intro c hc
        apply ih
        have h1 : sizeOf c < sizeOf cs := List.sizeOf_lt_of_mem hc
        have h2 : sizeOf (Item.mk f n fo m v cs) =
            1 + sizeOf f + sizeOf n + sizeOf fo + sizeOf m + sizeOf v + sizeOf cs := by
          simp
        omega
  intro it
  exact key (sizeOf it) it le_rfl

theorem markList_eq_map (terms : List String) : ∀ cs : List Item,
    markList terms cs = cs.map (markItem terms)
  | [] => rfl
  | c :: cs => by
    rw [markList, markList_eq_map terms cs, List.map_cons]

theorem descList_append : ∀ l1 l2 : List Item,
    descList (l1 ++ l2) = descList l1 ++ descList l2
  | [], _ => rfl
  | c :: cs, l2 => by
    rw [List.cons_append, descList, descList, descList_append cs l2,
      List.append_assoc]

theorem mem_descList {d : Item} : ∀ {L : List Item},
    d ∈ descList L ↔ ∃ c ∈ L, d ∈ selfAndDesc c := by
  intro L
  induction L with
  | nil => simp [descList]
  | cons c cs ih =>
    rw [descList]
    simp only [List.mem_append, ih, List.mem_cons]
    constructor
    · rintro (h | ⟨c2, hc2, hd⟩)
      · exact ⟨c, Or.inl rfl, h⟩
      · exact ⟨c2, Or.inr hc2, hd⟩
    · rintro ⟨c2, hc2 | hc2, hd⟩
      · exact Or.inl (hc2 ▸ hd)
      · exact Or.inr ⟨c2, hc2, hd⟩

theorem anyCongr {p q : Item → Bool} : ∀ {l : List Item},
    (∀ x ∈ l, p x = q x) → l.any p = l.any q := by
  intro l
  induction l with
  | nil => intro _; rfl
  | cons x xs ih =>
    intro h
    simp only [List.any_cons]
    rw [h x (List.mem_cons_self x xs), ih fun y hy => h y (List.mem_cons_of_mem x hy)]

theorem descList_any (p : Item → Bool) : ∀ L : List Item,
    (descList L).any p = L.any fun c => (selfAndDesc c).any p
  | [] => rfl
  | c :: cs => by
    rw [descList, List.any_append, List.any_cons, descList_any p cs]

theorem selfAndDesc_head : ∀ it : Item, it ∈ selfAndDesc it := by
  intro it
  cases it with
  | mk f n fo m v cs =>
    rw [selfAndDesc]
    exact List.mem_cons_self _ _

/-- With the local visibility equation at the root, the subtree-wide "any
visible" collapses to the root's flag. -/
theorem anyVisible_root (terms : List String) (t : Item)
    (ht : t.visible = (terms.isEmpty || (terms.any fun x => strstr t.folded x)
      || (descList t.children).any Item.visible)) :
    (selfAndDesc t).any Item.visible = t.visible := by
  cases t with
  | mk f n fo m v cs =>
    rw [selfAndDesc, List.any_cons]
    simp only [Item.visible, Item.folded, Item.children] at ht ⊢
    by_cases h : (descList cs).any Item.visible = true
    · rw [h, Bool.or_true]
      rw [h, Bool.or_true] at ht
      rw [ht]
    · rw [Bool.not_eq_true] at h
      rw [h, Bool.or_false]

/-- Every node of a tree processed by `mark_matches` satisfies the claimed
visibility equation: visible iff the term list is empty, or the own folded
name holds a term, or some descendant is visible. -/
theorem markItem_visEq (terms : List String) : ∀ it : Item,
    ∀ d ∈ selfAndDesc (markItem terms it),
      d.visible = (terms.isEmpty || (terms.any fun t => strstr d.folded t)
        || (descList d.children).any Item.visible) := by
  refine Item.inductionOn _ ?_
  intro f n fo m v cs ih d hd
  rw [markItem] at hd
  rw [selfAndDesc] at hd
  rcases List.mem_cons.mp hd with rfl | hdesc
  · simp only [Item.visible, Item.folded, Item.children]
    have hchild : (descList (markList terms cs)).any Item.visible
        = (markList terms cs).any Item.visible := by
      rw [descList_any]
      refine anyCongr ?_
      intro c2 hc2
      rw [markList_eq_map] at hc2
      rcases List.mem_map.mp hc2 with ⟨c, hc, rfl⟩
      exact anyVisible_root terms _ (ih c hc _ (selfAndDesc_head _))
    rw [hchild]
    cases terms.isEmpty <;> cases (terms.any fun t => strstr fo t) <;>
      cases (markList terms cs).any Item.visible <;> rfl
  · rcases mem_descList.mp hdesc with ⟨c2, hc2, hdc2⟩
    rw [markList_eq_map] at hc2
    rcases List.mem_map.mp hc2 with ⟨c, hc, rfl⟩
    exact ih c hc d hdc2

/- ------------------------------------------------------------------ -/
/- C3                                                                  -/
/- ------------------------------------------------------------------ -/

/-- C3: after `do_search` with term list `terms`, every node of the database
is visible iff the term list is empty, or its `folded_name` contains a term
as a substring, or some descendant is visible; and the empty term list marks
every node visible. -/
theorem c3_search_visibility :
    (∀ (terms : List String) (m : SearchModel) (d : Item),
      d ∈ descList ((doSearch terms m).database) →
      d.visible = (terms.isEmpty || (terms.any fun t => strstr d.folded t)
        || (descList d.children).any Item.visible)) ∧
    (∀ (m : SearchModel) (d : Item),
      d ∈ descList ((doSearch [] m).database) → d.visible = true) := by
  have main : ∀ (terms : List String) (m : SearchModel) (d : Item),
      d ∈ descList ((doSearch terms m).database) →
      d.visible = (terms.isEmpty || (terms.any fun t => strstr d.folded t)
        || (descList d.children).any Item.visible) := by
    intro terms m d hd
    have hdb : (doSearch terms m).database = markList terms m.database := rfl
    rw [hdb] at hd
    rcases mem_descList.mp hd with ⟨c2, hc2, hdc2⟩
    rw [markList_eq_map] at hc2
    rcases List.mem_map.mp hc2 with ⟨c, hc, rfl⟩
    exact markItem_visEq terms c d hdc2
  refine ⟨main, ?_⟩
  intro m d hd
  rw [main [] m d hd]
  rfl

/-- C3 witness: at the one-node database "rock" with term "roc", the marked
node is in the searched database and satisfies the visibility equation (it is
visible via its own folded name). -/
theorem c3_search_visibility_witness :
    ((markItem ["roc"] rockItem) ∈ descList ((doSearch ["roc"] rockModel).database)) ∧
    (markItem ["roc"] rockItem).visible
      = ((["roc"] : List String).isEmpty
        || ((["roc"] : List String).any fun t =>
              strstr (markItem ["roc"] rockItem).folded t)
        || (descList (markItem ["roc"] rockItem).children).any Item.visible) := by
  have hm : (markItem ["roc"] rockItem)
      ∈ descList ((doSearch ["roc"] rockModel).database) := by
    rw [show descList ((doSearch ["roc"] rockModel).database)
      = [markItem ["roc"] rockItem] from rfl]
    exact List.mem_singleton.mpr rfl
  exact ⟨hm, c3_search_visibility.1 ["roc"] rockModel _ hm⟩

/- ------------------------------------------------------------------ -/
/- Lookup-or-insert and key-chain lemmas (C4, C5, C8).                 -/
/- ------------------------------------------------------------------ -/

theorem keyMatches_field_name {k : Key} {c : Item} (h : keyMatches k c = true) :
    c.field = k.field ∧ c.name = k.name := by
  simpa [keyMatches] using h

theorem findChild_eq_some {k : Key} {db : List Item} {c : Item}
    (h : findChild k db = some c) : keyMatches k c = true :=
  List.find?_some h

theorem findChild_updOrIns (k : Key) (upd : Item → Item) (fresh : Item)
    (hfresh : keyMatches k fresh = true)
    (hupd : ∀ c, keyMatches k c = true → keyMatches k (upd c) = true) :
    ∀ db : List Item,
      findChild k (updOrIns k upd fresh db) =
        some (match findChild k db with
              | some c => upd c
              | none => fresh)
  | [] => by simp [updOrIns, findChild, hfresh]
  | c :: cs => by
    by_cases h : keyMatches k c = true
    · simp [updOrIns, findChild, h, hupd c h]
    · simp only [updOrIns, findChild, if_neg h, List.find?]
      rw [Bool.not_eq_true] at h
      rw [h]
      simpa [findChild] using findChild_updOrIns k upd fresh hfresh hupd cs

theorem lookupChain_pair (k k2 : Key) (ks : List Key) (items : List Item) :
    lookupChain (k :: k2 :: ks) items =
      match findChild k items with
      | none => none
      | some c => lookupChain (k2 :: ks) c.children := rfl

theorem pathKeys_pair (p q : String) (ps : List String) :
    pathKeys (p :: q :: ps) = ⟨SearchField.Genre, p⟩ :: pathKeys (q :: ps) := rfl

theorem pathKeys_ne_nil {q : String} {ps : List String} :
    pathKeys (q :: ps) ≠ [] := by
  cases ps <;> simp [pathKeys]

theorem lookupChain_single (k : Key) (items : List Item) :
    lookupChain [k] items = findChild k items := rfl

theorem lookupChain_cons (k : Key) (ks : List Key) (items : List Item)
    (h : ks ≠ []) :
    lookupChain (k :: ks) items =
      match findChild k items with
      | none => none
      | some c => lookupChain ks c.children := by
  cases ks with
  | nil => exact absurd rfl h
  | cons k2 ks2 => rfl

theorem lookupChain_nil_items : ∀ ks : List Key, lookupChain ks [] = none
  | [] => rfl
  | [_] => rfl
  | _ :: _ :: _ => rfl

theorem addPath_single_eq (e : Nat) (p : String) (db : List Item) :
    addPath e [p] db =
      updOrIns ⟨SearchField.Title, p⟩
        (fun c => Item.mk c.field c.name c.folded (c.matchIds ++ [e]) c.visible
          (addPath e [] c.children))
        (Item.mk SearchField.Title p (foldName p) [e] true (addPath e [] []))
        db := rfl

theorem addPath_multi_eq (e : Nat) (p q : String) (ps : List String)
    (db : List Item) :
    addPath e (p :: q :: ps) db =
      updOrIns ⟨SearchField.Genre, p⟩
        (fun c => Item.mk c.field c.name c.folded c.matchIds c.visible
          (addPath e (q :: ps) c.children))
        (Item.mk SearchField.Genre p (foldName p) [] true (addPath e (q :: ps) []))
        db := rfl

/-- The final path segment resolves, after the walk, to a `Title` node whose
match list gained exactly the inserted entry id. -/
theorem addPath_final (e : Nat) : ∀ (parts : List String) (db : List Item),
    parts ≠ [] →
    ∃ node, lookupChain (pathKeys parts) (addPath e parts db) = some node ∧
      node.field = SearchField.Title ∧
      node.matchIds = prevMatches (pathKeys parts) db ++ [e]
  | [], _, h => absurd rfl h
  | [p], db, _ => by
    have hU := findChild_updOrIns (⟨SearchField.Title, p⟩ : Key)
      (fun c => Item.mk c.field c.name c.folded (c.matchIds ++ [e]) c.visible
        (addPath e [] c.children))
      (Item.mk SearchField.Title p (foldName p) [e] true (addPath e [] []))
      (by simp [keyMatches, Item.field, Item.name])
      (fun c hc => hc)
      db
    rw [show pathKeys [p] = [⟨SearchField.Title, p⟩] from rfl,
      addPath_single_eq, lookupChain_single]
    rcases hfc : findChild ⟨SearchField.Title, p⟩ db with _ | c
    · rw [hfc] at hU
      refine ⟨_, hU, rfl, ?_⟩
      show ([e] : List Nat) = prevMatches (pathKeys [p]) db ++ [e]
      rw [show pathKeys [p] = [⟨SearchField.Title, p⟩] from rfl, prevMatches,
        lookupChain_single, hfc]
      rfl
    · rw [hfc] at hU
      refine ⟨_, hU, ?_, ?_⟩
      · rcases keyMatches_field_name (findChild_eq_some hfc) with ⟨h1, _⟩
        simpa [Item.field] using h1
      · show c.matchIds ++ [e] = prevMatches (pathKeys [p]) db ++ [e]
        rw [show pathKeys [p] = [⟨SearchField.Title, p⟩] from rfl, prevMatches,
          lookupChain_single, hfc]
  | p :: q :: ps, db, _ => by
    have hU := findChild_updOrIns (⟨SearchField.Genre, p⟩ : Key)
      (fun c => Item.mk c.field c.name c.folded c.matchIds c.visible
        (addPath e (q :: ps) c.children))
      (Item.mk SearchField.Genre p (foldName p) [] true (addPath e (q :: ps) []))
      (by simp [keyMatches, Item.field, Item.name])
      (fun c hc => hc)
      db
    rw [addPath_multi_eq, pathKeys_pair]
    rcases hfc : findChild ⟨SearchField.Genre, p⟩ db with _ | c
    · rw [hfc] at hU
      rw [lookupChain_cons _ _ _ pathKeys_ne_nil, hU]
      rcases addPath_final e (q :: ps) [] (by simp) with ⟨node, hn, hf, hm⟩
      have hprev : prevMatches
          (⟨SearchField.Genre, p⟩ :: pathKeys (q :: ps)) db = [] := by
        rw [prevMatches, lookupChain_cons _ _ _ pathKeys_ne_nil, hfc]
      have hprev2 : prevMatches (pathKeys (q :: ps)) ([] : List Item) = [] := by
        rw [prevMatches, lookupChain_nil_items]
      refine ⟨node, ?_, hf, ?_⟩
      · simpa [Item.children] using hn
      · rw [hm, hprev2, hprev]
    · rw [hfc] at hU
      rw [lookupChain_cons _ _ _ pathKeys_ne_nil, hU]
      rcases addPath_final e (q :: ps) c.children (by simp) with ⟨node, hn, hf, hm⟩
      have hprev : prevMatches (⟨SearchField.Genre, p⟩ :: pathKeys (q :: ps)) db
          = prevMatches (pathKeys (q :: ps)) c.children := by
        rw [prevMatches, lookupChain_cons _ _ _ pathKeys_ne_nil, hfc, prevMatches]
      refine ⟨node, ?_, hf, ?_⟩
      · simpa [Item.children] using hn
      · rw [hm, hprev]

/-- Every non-final (folder) prefix of the walked path resolves to a `Genre`
node whose match list is unchanged. -/
theorem addPath_mid (e : Nat) : ∀ (pre suf : List String) (db : List Item),
    pre ≠ [] → suf ≠ [] →
    ∃ node, lookupChain (genreKeys pre) (addPath e (pre ++ suf) db) = some node ∧
      node.field = SearchField.Genre ∧
      node.matchIds = prevMatches (genreKeys pre) db
  | [], _, _, h, _ => absurd rfl h
  | [p], [], _, _, h => absurd rfl h
  | [p], s :: ss, db, _, _ => by
    have hU := findChild_updOrIns (⟨SearchField.Genre, p⟩ : Key)
      (fun c => Item.mk c.field c.name c.folded c.matchIds c.visible
        (addPath e (s :: ss) c.children))
      (Item.mk SearchField.Genre p (foldName p) [] true (addPath e (s :: ss) []))
      (by simp [keyMatches, Item.field, Item.name])
      (fun c hc => hc)
      db
    rw [show ([p] ++ s :: ss : List String) = p :: s :: ss from rfl,
      addPath_multi_eq,
      show genreKeys [p] = [⟨SearchField.Genre, p⟩] from rfl, lookupChain_single]
    rcases hfc : findChild ⟨SearchField.Genre, p⟩ db with _ | c
    · rw [hfc] at hU
      refine ⟨_, hU, rfl, ?_⟩
      show ([] : List Nat) = prevMatches (genreKeys [p]) db
      rw [show genreKeys [p] = [⟨SearchField.Genre, p⟩] from rfl, prevMatches,
        lookupChain_single, hfc]
    · rw [hfc] at hU
      refine ⟨_, hU, ?_, ?_⟩
      · rcases keyMatches_field_name (findChild_eq_some hfc) with ⟨h1, _⟩
        simpa [Item.field] using h1
      · show c.matchIds = prevMatches (genreKeys [p]) db
        rw [show genreKeys [p] = [⟨SearchField.Genre, p⟩] from rfl, prevMatches,
          lookupChain_single, hfc]
  | p :: p2 :: pre, suf, db, _, hsuf => by
    have hU := findChild_updOrIns (⟨SearchField.Genre, p⟩ : Key)
      (fun c => Item.mk c.field c.name c.folded c.matchIds c.visible
        (addPath e (p2 :: (pre ++ suf)) c.children))
      (Item.mk SearchField.Genre p (foldName p)
        [] true (addPath e (p2 :: (pre ++ suf)) []))
      (by simp [keyMatches, Item.field, Item.name])
      (fun c hc => hc)
      db
    have hmulti : ((p :: p2 :: pre) ++ suf : List String)
        = p :: p2 :: (pre ++ suf) := rfl
    have hq : ((p2 :: pre) ++ suf : List String) = p2 :: (pre ++ suf) := rfl
    rw [hmulti, addPath_multi_eq,
      show genreKeys (p :: p2 :: pre)
        = ⟨SearchField.Genre, p⟩ :: genreKeys (p2 :: pre) from rfl]
    have hgne : genreKeys (p2 :: pre) ≠ [] := by simp [genreKeys]
    rcases hfc : findChild ⟨SearchField.Genre, p⟩ db with _ | c
    · rw [hfc] at hU
      rw [lookupChain_cons _ _ _ hgne, hU]
      rcases addPath_mid e (p2 :: pre) suf [] (by simp) hsuf with ⟨node, hn, hf, hm⟩
      rw [hq] at hn
      have hprev : prevMatches
          (⟨SearchField.Genre, p⟩ :: genreKeys (p2 :: pre)) db = [] := by
        rw [prevMatches, lookupChain_cons _ _ _ hgne, hfc]
      have hprev2 : prevMatches (genreKeys (p2 :: pre)) ([] : List Item) = [] := by
        rw [prevMatches, lookupChain_nil_items]
      refine ⟨node, ?_, hf, ?_⟩
      · simpa [Item.children] using hn
      · rw [hm, hprev2, hprev]
    · rw [hfc] at hU
      rw [lookupChain_cons _ _ _ hgne, hU]
      rcases addPath_mid e (p2 :: pre) suf c.children (by simp) hsuf
        with ⟨node, hn, hf, hm⟩
      rw [hq] at hn
      have hprev : prevMatches (⟨SearchField.Genre, p⟩ :: genreKeys (p2 :: pre)) db
          = prevMatches (genreKeys (p2 :: pre)) c.children := by
        rw [prevMatches, lookupChain_cons _ _ _ hgne, hfc, prevMatches]
      refine ⟨node, ?_, hf, ?_⟩
      · simpa [Item.children] using hn
      · rw [hm, hprev]

/- ------------------------------------------------------------------ -/
/- C4                                                                  -/
/- ------------------------------------------------------------------ -/

/-- C4: in path-keyed population, for an entry whose normalized path splits
into the given segments, the walk gives the final segment a `Title` node with
the entry id appended to its match list, and gives every intermediate prefix
a `Genre` node whose match list is unchanged. -/
theorem c4_path_population (e : Nat) (parts : List String) (db : List Item)
    (h : parts ≠ []) :
    (∃ node, lookupChain (pathKeys parts) (addPath e parts db) = some node ∧
      node.field = SearchField.Title ∧
      node.matchIds = prevMatches (pathKeys parts) db ++ [e]) ∧
    (∀ pre suf, parts = pre ++ suf → pre ≠ [] → suf ≠ [] →
      ∃ node, lookupChain (genreKeys pre) (addPath e parts db) = some node ∧
        node.field = SearchField.Genre ∧
        node.matchIds = prevMatches (genreKeys pre) db) :=
  ⟨addPath_final e parts db h,
   fun pre suf hsplit h1 h2 => hsplit ▸ addPath_mid e pre suf db h1 h2⟩

/-- C4 witness: entry 0 at path segments `["a", "b"]` into an empty database:
the `Title` leaf "b" carries `[0]`, the folder "a" is `Genre` with an empty
match list. -/
theorem c4_path_population_witness :
    (∃ node, lookupChain (pathKeys ["a", "b"]) (addPath 0 ["a", "b"] [])
        = some node ∧
      node.field = SearchField.Title ∧
      node.matchIds = prevMatches (pathKeys ["a", "b"]) [] ++ [0]) ∧
    (∃ node, lookupChain (genreKeys ["a"]) (addPath 0 ["a", "b"] [])
        = some node ∧
      node.field = SearchField.Genre ∧
      node.matchIds = prevMatches (genreKeys ["a"]) []) := by
  have h := c4_path_population 0 ["a", "b"] [] (by simp)
  exact ⟨h.1, h.2 ["a"] ["b"] rfl (by simp) (by simp)⟩

/- ------------------------------------------------------------------ -/
/- add_to_database chain lemmas (C5, C8).                              -/
/- ------------------------------------------------------------------ -/

theorem addToDb_skip_eq (e : Nat) (k : Key) (ks : List Key) (db : List Item)
    (h : k.name = "") : addToDb e (k :: ks) db = addToDb e ks db := by
  simp only [addToDb, if_pos h]

theorem addToDb_cons_eq (e : Nat) (k : Key) (ks : List Key) (db : List Item)
    (h : ¬ k.name = "") :
    addToDb e (k :: ks) db =
      updOrIns k
        (fun c => Item.mk c.field c.name c.folded (c.matchIds ++ [e]) c.visible
          (addToDb e ks c.children))
        (Item.mk k.field k.name (foldName k.name) [e] true (addToDb e ks []))
        db := by
  simp only [addToDb, if_neg h]

/-- Skipping the empty-name keys is the same as filtering them away first:
an empty-name key creates no node and contributes at no level. -/
theorem addToDb_filter (e : Nat) : ∀ (keys : List Key) (db : List Item),
    addToDb e keys db = addToDb e (keys.filter fun k => k.name ≠ "") db
  | [], _ => rfl
  | k :: ks, db => by
    have hks := addToDb_filter e ks
    by_cases h : k.name = ""
    · rw [addToDb_skip_eq e k ks db h, hks db]
      congr 1
      simp [List.filter_cons, h]
    · rw [addToDb_cons_eq e k ks db h,
        show ((k :: ks).filter fun k2 => k2.name ≠ "")
          = k :: (ks.filter fun k2 => k2.name ≠ "") from by
            simp [List.filter_cons, h],
        addToDb_cons_eq e k _ db h]
      congr 1
      · funext c
        rw [hks c.children]
      · rw [hks []]

/-- Along a chain of non-empty keys, every prefix resolves after the walk to a
node whose match list gained exactly the inserted entry id. -/
theorem addToDb_chain (e : Nat) : ∀ (pre suf : List Key) (db : List Item),
    (∀ k2 ∈ pre ++ suf, k2.name ≠ "") → pre ≠ [] →
    ∃ node, lookupChain pre (addToDb e (pre ++ suf) db) = some node ∧
      node.matchIds = prevMatches pre db ++ [e]
  | [], _, _, _, h => absurd rfl h
  | [k], suf, db, hne, _ => by
    have hk : ¬ k.name = "" := hne k (by simp)
    have hU := findChild_updOrIns k
      (fun c => Item.mk c.field c.name c.folded (c.matchIds ++ [e]) c.visible
        (addToDb e suf c.children))
      (Item.mk k.field k.name (foldName k.name) [e] true (addToDb e suf []))
      (by simp [keyMatches, Item.field, Item.name])
      (fun c hc => hc)
      db
    rw [show ([k] ++ suf : List Key) = k :: suf from rfl,
      addToDb_cons_eq e k suf db hk, lookupChain_single]
    rcases hfc : findChild k db with _ | c
    · rw [hfc] at hU
      refine ⟨_, hU, ?_⟩
      show ([e] : List Nat) = prevMatches [k] db ++ [e]
      rw [prevMatches, lookupChain_single, hfc]
      rfl
    · rw [hfc] at hU
      refine ⟨_, hU, ?_⟩
      show c.matchIds ++ [e] = prevMatches [k] db ++ [e]
      rw [prevMatches, lookupChain_single, hfc]
  | k :: k2 :: pre, suf, db, hne, _ => by
    have hk : ¬ k.name = "" := hne k (by simp)
    have hU := findChild_updOrIns k
      (fun c => Item.mk c.field c.name c.folded (c.matchIds ++ [e]) c.visible
        (addToDb e ((k2 :: pre) ++ suf) c.children))
      (Item.mk k.field k.name (foldName k.name) [e] true
        (addToDb e ((k2 :: pre) ++ suf) []))
      (by simp [keyMatches, Item.field, Item.name])
      (fun c hc => hc)
      db
    have hcons : ((k :: k2 :: pre) ++ suf : List Key)
        = k :: ((k2 :: pre) ++ suf) := rfl
    have hpne : (k2 :: pre : List Key) ≠ [] := by simp
    rw [hcons, addToDb_cons_eq e k _ db hk, lookupChain_cons _ _ _ hpne]
    have hne2 : ∀ x ∈ (k2 :: pre) ++ suf, x.name ≠ "" :=
      fun x hx => hne x (List.mem_cons_of_mem k hx)
    rcases hfc : findChild k db with _ | c
    · rw [hfc] at hU
      rw [hU]
      rcases addToDb_chain e (k2 :: pre) suf [] hne2 (by simp)
        with ⟨node, hn, hm⟩
      have hprev : prevMatches (k :: k2 :: pre) db = [] := by
        rw [prevMatches, lookupChain_cons _ _ _ hpne, hfc]
      have hprev2 : prevMatches (k2 :: pre) ([] : List Item) = [] := by
        rw [prevMatches, lookupChain_nil_items]
      refine ⟨node, ?_, ?_⟩
      · simpa [Item.children] using hn
      · rw [hm, hprev2, hprev]
    · rw [hfc] at hU
      rw [hU]
      rcases addToDb_chain e (k2 :: pre) suf c.children hne2 (by simp)
        with ⟨node, hn, hm⟩
      have hprev : prevMatches (k :: k2 :: pre) db
          = prevMatches (k2 :: pre) c.children := by
        rw [prevMatches, lookupChain_cons _ _ _ hpne, hfc, prevMatches]
      refine ⟨node, ?_, ?_⟩
      · simpa [Item.children] using hn
      · rw [hm, hprev]

theorem skelOf_eq (it : Item) :
    skelOf it = Skel.mk it.field it.name (skelList it.children) := by
  cases it
  rfl

/-- After a walk every (non-skipped) key of its chain resolves. -/
theorem chainIn_addToDb (e : Nat) : ∀ (keys : List Key) (db : List Item),
    chainIn keys (addToDb e keys db) = true
  | [], _ => rfl
  | k :: ks, db => by
    by_cases h : k.name = ""
    · rw [addToDb_skip_eq e k ks db h]
      simp only [chainIn, if_pos h]
      exact chainIn_addToDb e ks db
    · rw [addToDb_cons_eq e k ks db h]
      have hU := findChild_updOrIns k
        (fun c => Item.mk c.field c.name c.folded (c.matchIds ++ [e]) c.visible
          (addToDb e ks c.children))
        (Item.mk k.field k.name (foldName k.name) [e] true (addToDb e ks []))
        (by simp [keyMatches, Item.field, Item.name])
        (fun c hc => hc)
        db
      simp only [chainIn, if_neg h]
      rcases hfc : findChild k db with _ | c
      · rw [hfc] at hU
        rw [hU]
        exact chainIn_addToDb e ks []
      · rw [hfc] at hU
        rw [hU]
        exact chainIn_addToDb e ks c.children

theorem skelList_updOrIns_found (k : Key) (upd : Item → Item) (fresh : Item) :
    ∀ (db : List Item) (c0 : Item), findChild k db = some c0 →
      skelOf (upd c0) = skelOf c0 →
      skelList (updOrIns k upd fresh db) = skelList db
  | [], _, h, _ => by simp [findChild] at h
  | c :: cs, c0, h, hs => by
    by_cases hm : keyMatches k c = true
    · have hcc : c = c0 := by
        have hfcc : findChild k (c :: cs) = some c := by
          simp [findChild, List.find?_cons, hm]
        rw [hfcc] at h
        exact Option.some.inj h
      subst hcc
      rw [show updOrIns k upd fresh (c :: cs) = upd c :: cs from by
        simp [updOrIns, hm]]
      rw [skelList, skelList, hs]
    · have h2 : findChild k cs = some c0 := by
        simpa [findChild, List.find?_cons, hm] using h
      rw [show updOrIns k upd fresh (c :: cs) = c :: updOrIns k upd fresh cs
        from by simp [updOrIns, hm]]
      rw [skelList, skelList,
        skelList_updOrIns_found k upd fresh cs c0 h2 hs]

/-- When every key of the chain already resolves, the walk creates no node:
the skeleton is unchanged. -/
theorem skel_addToDb (e : Nat) : ∀ (keys : List Key) (db : List Item),
    chainIn keys db = true → skelList (addToDb e keys db) = skelList db
  | [], _, _ => rfl
  | k :: ks, db, hc => by
    by_cases h : k.name = ""
    · rw [addToDb_skip_eq e k ks db h]
      refine skel_addToDb e ks db ?_
      simpa only [chainIn, if_pos h] using hc
    · rw [addToDb_cons_eq e k ks db h]
      simp only [chainIn, if_neg h] at hc
      rcases hfc : findChild k db with _ | c
      · rw [hfc] at hc
        simp at hc
      · rw [hfc] at hc
        have hc2 : chainIn ks c.children = true := hc
        refine skelList_updOrIns_found k _ _ db c hfc ?_
        rcases c with ⟨cf, cn, cfo, cm, cv, ccs⟩
        show skelOf (Item.mk cf cn cfo (cm ++ [e]) cv (addToDb e ks ccs))
          = skelOf (Item.mk cf cn cfo cm cv ccs)
        rw [skelOf_eq, skelOf_eq]
        simp only [Item.field, Item.name, Item.children]
        rw [skel_addToDb e ks ccs hc2]

/- ------------------------------------------------------------------ -/
/- C5                                                                  -/
/- ------------------------------------------------------------------ -/

/-- C5: in tag-keyed population, the walk behaves exactly as if the
empty-name keys were filtered away (no node is created for them and the id
appears at no such level), and along the remaining chain every prefix
resolves to a node whose match list gained the entry id. -/
theorem c5_tag_population (e : Nat) (keys : List Key) (db : List Item) :
    (addToDb e keys db = addToDb e (keys.filter fun k => k.name ≠ "") db) ∧
    (∀ pre suf, keys.filter (fun k => k.name ≠ "") = pre ++ suf → pre ≠ [] →
      ∃ node, lookupChain pre (addToDb e keys db) = some node ∧
        node.matchIds = prevMatches pre db ++ [e]) := by
  refine ⟨addToDb_filter e keys db, ?_⟩
  intro pre suf hsplit hpre
  rw [addToDb_filter e keys db, hsplit]
  refine addToDb_chain e pre suf db ?_ hpre
  intro k2 hk2
  rw [← hsplit] at hk2
  have hk2f := List.of_mem_filter hk2
  simpa using hk2f

/-- C5 witness: inserting entry 1 with keys Genre "rock", Artist "" (skipped),
Title "song" into an empty database behaves as the filtered chain, and the
Genre prefix node accumulated the id. -/
theorem c5_tag_population_witness :
    (addToDb 1 [⟨SearchField.Genre, "rock"⟩, ⟨SearchField.Artist, ""⟩,
        ⟨SearchField.Title, "song"⟩] []
      = addToDb 1 ([⟨SearchField.Genre, "rock"⟩, ⟨SearchField.Artist, ""⟩,
        ⟨SearchField.Title, "song"⟩].filter fun k => k.name ≠ "") []) ∧
    (∃ node, lookupChain [⟨SearchField.Genre, "rock"⟩]
        (addToDb 1 [⟨SearchField.Genre, "rock"⟩, ⟨SearchField.Artist, ""⟩,
          ⟨SearchField.Title, "song"⟩] []) = some node ∧
      node.matchIds
        = prevMatches [⟨SearchField.Genre, "rock"⟩] [] ++ [1]) := by
  have h := c5_tag_population 1
    [⟨SearchField.Genre, "rock"⟩, ⟨SearchField.Artist, ""⟩,
      ⟨SearchField.Title, "song"⟩] []
  exact ⟨h.1, h.2 [⟨SearchField.Genre, "rock"⟩] [⟨SearchField.Title, "song"⟩]
    (by decide) (by simp)⟩

/- ------------------------------------------------------------------ -/
/- C8                                                                  -/
/- ------------------------------------------------------------------ -/

/-- C8: a second identical `add_to_database` call creates no new node (the
skeleton is unchanged), while every chain node's match list gains the id
again, ending with multiplicity exactly two more than before the two calls —
the index does not deduplicate. -/
theorem c8_repeated_insert (e : Nat) (keys : List Key) (db : List Item) :
    (skelList (addToDb e keys (addToDb e keys db))
      = skelList (addToDb e keys db)) ∧
    (∀ pre suf, keys.filter (fun k => k.name ≠ "") = pre ++ suf → pre ≠ [] →
      ∃ node, lookupChain pre (addToDb e keys (addToDb e keys db))
          = some node ∧
        node.matchIds = (prevMatches pre db ++ [e]) ++ [e] ∧
        node.matchIds.count e = (prevMatches pre db).count e + 2) := by
  constructor
  · exact skel_addToDb e keys _ (chainIn_addToDb e keys db)
  · intro pre suf hsplit hpre
    have hall : ∀ k2 ∈ pre ++ suf, k2.name ≠ "" := by
      intro k2 hk2
      rw [← hsplit] at hk2
      have hk2f := List.of_mem_filter hk2
      simpa using hk2f
    have h1 : ∃ node, lookupChain pre (addToDb e keys db) = some node ∧
        node.matchIds = prevMatches pre db ++ [e] := by
      rw [addToDb_filter e keys db, hsplit]
      exact addToDb_chain e pre suf db hall hpre
    rcases h1 with ⟨n1, hn1, hm1⟩
    have h2 : ∃ node, lookupChain pre (addToDb e keys (addToDb e keys db))
        = some node ∧
        node.matchIds = prevMatches pre (addToDb e keys db) ++ [e] := by
      rw [addToDb_filter e keys (addToDb e keys db), hsplit]
      exact addToDb_chain e pre suf _ hall hpre
    rcases h2 with ⟨n2, hn2, hm2⟩
    have hprev1 : prevMatches pre (addToDb e keys db) = n1.matchIds := by
      rw [prevMatches, hn1]
    refine ⟨n2, hn2, ?_, ?_⟩
    · rw [hm2, hprev1, hm1]
    · rw [hm2, hprev1, hm1]
      simp [List.count_append]

/-- C8 witness: inserting entry 7 under Genre "rock" twice into an empty
database leaves the node with match list `[7, 7]` — the id twice. -/
theorem c8_repeated_insert_witness :
    ∃ node, lookupChain [⟨SearchField.Genre, "rock"⟩]
        (addToDb 7 [⟨SearchField.Genre, "rock"⟩]
          (addToDb 7 [⟨SearchField.Genre, "rock"⟩] [])) = some node ∧
      node.matchIds
        = (prevMatches [⟨SearchField.Genre, "rock"⟩] [] ++ [7]) ++ [7] ∧
      node.matchIds.count 7
        = (prevMatches [⟨SearchField.Genre, "rock"⟩] []).count 7 + 2 :=
  (c8_repeated_insert 7 [⟨SearchField.Genre, "rock"⟩] []).2
    [⟨SearchField.Genre, "rock"⟩] [] (by decide) (by simp)

/- ------------------------------------------------------------------ -/
/- Entry-id provenance in create_database (C9).                        -/
/- ------------------------------------------------------------------ -/

theorem collectIds_cons_split (c : Item) (rest : List Item) :
    collectIds (c :: rest) = collectIds [c] ++ collectIds rest := by
  rcases c with ⟨f, n, fo, m, v, cs⟩
  simp [collectIds]

/-- Membership in the ids of an updated-or-inserted hash reduces to the
update's own contribution, the fresh node's, or the old hash. -/
theorem collectIds_updOrIns_sub (k : Key) (upd : Item → Item) (fresh : Item)
    (S : Nat → Prop)
    (hupd : ∀ c x, x ∈ collectIds [upd c] → S x ∨ x ∈ collectIds [c])
    (hfresh : ∀ x, x ∈ collectIds [fresh] → S x) :
    ∀ (db : List Item) (x : Nat),
      x ∈ collectIds (updOrIns k upd fresh db) → S x ∨ x ∈ collectIds db
  | [], x, h => Or.inl (hfresh x (by simpa [updOrIns] using h))
  | c :: cs, x, h => by
    by_cases hm : keyMatches k c = true
    · rw [show updOrIns k upd fresh (c :: cs) = upd c :: cs from by
        simp [updOrIns, hm]] at h
      rw [collectIds_cons_split] at h
      rw [collectIds_cons_split]
      rcases List.mem_append.mp h with h1 | h2
      · rcases hupd c x h1 with hS | hc
        · exact Or.inl hS
        · exact Or.inr (List.mem_append.mpr (Or.inl hc))
      · exact Or.inr (List.mem_append.mpr (Or.inr h2))
    · rw [show updOrIns k upd fresh (c :: cs) = c :: updOrIns k upd fresh cs
        from by simp [updOrIns, hm]] at h
      rw [collectIds_cons_split] at h
      rw [collectIds_cons_split]
      rcases List.mem_append.mp h with h1 | h2
      · exact Or.inr (List.mem_append.mpr (Or.inl h1))
      · rcases collectIds_updOrIns_sub k upd fresh S hupd hfresh cs x h2 with hS | hc
        · exact Or.inl hS
        · exact Or.inr (List.mem_append.mpr (Or.inr hc))

/-- The path walk for entry `e` only ever adds the id `e`. -/
theorem addPath_collectIds (e : Nat) : ∀ (parts : List String) (db : List Item)
    (x : Nat), x ∈ collectIds (addPath e parts db) → x = e ∨ x ∈ collectIds db
  | [], _, _, h => Or.inr h
  | [p], db, x, h => by
    rw [addPath_single_eq] at h
    refine collectIds_updOrIns_sub _ _ _ (fun y => y = e) ?_ ?_ db x h
    · intro c y hy
      rcases c with ⟨cf, cn, cfo, cm, cv, ccs⟩
      simp [collectIds] at hy ⊢
      tauto
    · intro y hy
      simp [collectIds, addPath] at hy
      exact hy
  | p :: q :: ps, db, x, h => by
    rw [addPath_multi_eq] at h
    refine collectIds_updOrIns_sub _ _ _ (fun y => y = e) ?_ ?_ db x h
    · intro c y hy
      rcases c with ⟨cf, cn, cfo, cm, cv, ccs⟩
      simp [collectIds] at hy ⊢
      rcases hy with hy1 | hy2
      · tauto
      · rcases addPath_collectIds e (q :: ps) ccs y (by simpa [collectIds] using hy2)
          with he | hc
        · tauto
        · tauto
    · intro y hy
      simp [collectIds] at hy
      rcases addPath_collectIds e (q :: ps) [] y (by simpa [collectIds] using hy)
        with he | hc
      · exact he
      · simp [collectIds] at hc
  termination_by parts => parts.length

/-- One create_database iteration only adds the id of a resolvable entry. -/
theorem createStep_ids (pl : List (Option String)) (baseDir : String)
    (db : List Item) (i x : Nat)
    (h : x ∈ collectIds (createStep pl baseDir db i)) :
    (x = i ∧ ∃ fn, pl.get? i = some (some fn)) ∨ x ∈ collectIds db := by
  unfold createStep at h
  rcases hg : pl.get? i with _ | o
  · rw [hg] at h
    exact Or.inr h
  · rcases o with _ | fn
    · rw [hg] at h
      exact Or.inr h
    · rw [hg] at h
      rcases addPath_collectIds i (entryParts baseDir fn) db x h with he | hd
      · exact Or.inl ⟨he, fn, rfl⟩
      · exact Or.inr hd

theorem foldl_createStep_ids (pl : List (Option String)) (baseDir : String) :
    ∀ (l : List Nat) (db : List Item),
    (∀ x ∈ collectIds db, ∃ fn, pl.get? x = some (some fn)) →
    ∀ x ∈ collectIds (l.foldl (createStep pl baseDir) db),
      ∃ fn, pl.get? x = some (some fn)
  | [], _, hdb => hdb
  | i :: is, db, hdb => by
    refine foldl_createStep_ids pl baseDir is (createStep pl baseDir db i) ?_
    intro x hx
    rcases createStep_ids pl baseDir db i x hx with ⟨rfl, hfn⟩ | hd
    · exact hfn
    · exact hdb x hd

/-- Every id in the built index belongs to an entry whose filename resolved. -/
theorem createDatabase_ids (pl : List (Option String)) (base : String) :
    ∀ x ∈ collectIds (createDatabase pl base),
      ∃ fn, pl.get? x = some (some fn) := by
  intro x hx
  refine foldl_createStep_ids pl (normBase base) (List.range pl.length) [] ?_ x hx
  intro y hy
  simp [collectIds] at hy

/- ------------------------------------------------------------------ -/
/- C9                                                                  -/
/- ------------------------------------------------------------------ -/

/-- C9: an entry whose filename the Entry Store cannot resolve is silently
skipped by `create_database`: its id appears in no match list of the built
index, and appending such an entry to the playlist leaves the built index
unchanged (the rebuild continues over the remaining entries). -/
theorem c9_unresolved_entry_skipped (pl : List (Option String)) (base : String)
    (i : Nat) :
    (pl.get? i = some none → i ∉ collectIds (createDatabase pl base)) ∧
    createDatabase (pl ++ [none]) base = createDatabase pl base := by
  constructor
  · intro hnone hin
    rcases createDatabase_ids pl base i hin with ⟨fn, hfn⟩
    rw [hnone] at hfn
    exact Option.noConfusion (Option.some.inj hfn)
  · unfold createDatabase
    have hlen : (pl ++ [none]).length = pl.length + 1 := by simp
    rw [hlen, List.range_succ, List.foldl_append]
    simp only [List.foldl_cons, List.foldl_nil]
    have hstep : createStep (pl ++ [none]) (normBase base)
        (List.foldl (createStep (pl ++ [none]) (normBase base)) []
          (List.range pl.length)) pl.length
        = List.foldl (createStep (pl ++ [none]) (normBase base)) []
            (List.range pl.length) := by
      unfold createStep
      rw [List.get?_concat_length]
    rw [hstep]
    refine List.foldl_ext _ _ _ ?_
    intro db j hj
    have hjlt : j < pl.length := List.mem_range.mp hj
    unfold createStep
    rw [List.get?_append hjlt]

/-- C9 witness: with playlist `[some "a/b", none]`, entry 1 resolves to no
filename and its id appears nowhere in the built index. -/
theorem c9_unresolved_entry_skipped_witness :
    ([some "a/b", none] : List (Option String)).get? 1 = some none ∧
    1 ∉ collectIds (createDatabase [some "a/b", none] "") :=
  ⟨rfl, (c9_unresolved_entry_skipped [some "a/b", none] "" 1).1 rfl⟩

/- ------------------------------------------------------------------ -/
/- Exporter dedup invariant (C6).                                      -/
/- ------------------------------------------------------------------ -/

theorem sizeOf_insertBy (lt : Item → Item → Bool) (x : Item) :
    ∀ l : List Item, sizeOf (insertBy lt x l) = 1 + sizeOf x + sizeOf l
  | [] => by simp [insertBy]
  | y :: ys => by
    simp only [insertBy]
    split
    · simp
    · simp [sizeOf_insertBy lt x ys]
      omega

theorem sizeOf_sortBy (lt : Item → Item → Bool) :
    ∀ l : List Item, sizeOf (sortBy lt l) = sizeOf l
  | [] => rfl
  | x :: xs => by
    simp [sortBy, sizeOf_insertBy, sizeOf_sortBy lt xs]

theorem addEntry_inv (st : ExpSt) (e : Nat)
    (h1 : st.urls.Nodup) (h2 : st.sel = st.urls)
    (h3 : ∀ u ∈ st.urls, u ∈ st.seen) :
    (addEntry st e).urls.Nodup ∧ (addEntry st e).sel = (addEntry st e).urls ∧
      ∀ u ∈ (addEntry st e).urls, u ∈ (addEntry st e).seen := by
  unfold addEntry
  by_cases he : e ∈ st.seen
  · rw [if_pos he]
    exact ⟨h1, h2, h3⟩
  · rw [if_neg he]
    refine ⟨?_, ?_, ?_⟩
    · have hne : e ∉ st.urls := fun hu => he (h3 e hu)
      simp [List.nodup_append, h1, hne]
    · simp [h2]
    · intro u hu
      rcases List.mem_append.mp hu with h | h
      · exact List.mem_append.mpr (Or.inl (h3 u h))
      · exact List.mem_append.mpr (Or.inr h)

theorem addEntries_inv : ∀ (ms : List Nat) (st : ExpSt),
    (st.urls.Nodup ∧ st.sel = st.urls ∧ ∀ u ∈ st.urls, u ∈ st.seen) →
    ((addEntries st ms).urls.Nodup ∧
      (addEntries st ms).sel = (addEntries st ms).urls ∧
      ∀ u ∈ (addEntries st ms).urls, u ∈ (addEntries st ms).seen)
  | [], _, h => h
  | x :: xs, st, h => by
    rw [show addEntries st (x :: xs) = addEntries (addEntry st x) xs from rfl]
    exact addEntries_inv xs (addEntry st x) (addEntry_inv st x h.1 h.2.1 h.2.2)

theorem collectList_inv : ∀ (l : List Item) (st : ExpSt),
    (st.urls.Nodup ∧ st.sel = st.urls ∧ ∀ u ∈ st.urls, u ∈ st.seen) →
    ((collectList l st).urls.Nodup ∧
      (collectList l st).sel = (collectList l st).urls ∧
      ∀ u ∈ (collectList l st).urls, u ∈ (collectList l st).seen) := by
  have key : ∀ (k : Nat) (l : List Item), sizeOf l ≤ k → ∀ st : ExpSt,
      (st.urls.Nodup ∧ st.sel = st.urls ∧ ∀ u ∈ st.urls, u ∈ st.seen) →
      ((collectList l st).urls.Nodup ∧
        (collectList l st).sel = (collectList l st).urls ∧
        ∀ u ∈ (collectList l st).urls, u ∈ (collectList l st).seen) := by
    intro k
    induction k with
    | zero =>
      intro l hle
      cases l <;> simp at hle
    | succ k ih =>
      intro l hle st h
      cases l with
      | nil => simpa [collectList] using h
      | cons c rest =>
        rcases c with ⟨cf, cn, cfo, cm, cv, ccs⟩
        have hsz : sizeOf (Item.mk cf cn cfo cm cv ccs :: rest) =
            1 + sizeOf (Item.mk cf cn cfo cm cv ccs) + sizeOf rest := by simp
        have hszc : sizeOf (Item.mk cf cn cfo cm cv ccs) =
            1 + sizeOf cf + sizeOf cn + sizeOf cfo + sizeOf cm + sizeOf cv
              + sizeOf ccs := by simp
        have hsz1 : sizeOf rest ≤ k := by omega
        have hsz2 : sizeOf (sortBy codeLt ccs) ≤ k := by
          rw [sizeOf_sortBy]
          omega
        have heq : collectList (Item.mk cf cn cfo cm cv ccs :: rest) st
            = collectList rest
              (if cf = SearchField.Title && ! cm.isEmpty then addEntries st cm
                else if ! ccs.isEmpty then collectList (sortBy codeLt ccs) st
                else st) := by
          simp [collectList]
        rw [heq]
        refine ih rest hsz1 _ ?_
        by_cases hA : (cf = SearchField.Title && ! cm.isEmpty) = true
        · rw [if_pos hA]
          exact addEntries_inv cm st h
        · rw [if_neg hA]
          by_cases hB : (! ccs.isEmpty) = true
          · rw [if_pos hB]
            exact ih (sortBy codeLt ccs) hsz2 st h
          · rw [if_neg hB]
            exact h
  intro l st h
  exact key (sizeOf l) l le_rfl st h

theorem exportStep_inv (st : ExpSt) (it : Item)
    (h : st.urls.Nodup ∧ st.sel = st.urls ∧ ∀ u ∈ st.urls, u ∈ st.seen) :
    ((exportStep st it).urls.Nodup ∧
      (exportStep st it).sel = (exportStep st it).urls ∧
      ∀ u ∈ (exportStep st it).urls, u ∈ (exportStep st it).seen) := by
  unfold exportStep
  by_cases hA : (it.field = SearchField.Title && ! it.matchIds.isEmpty) = true
  · rw [if_pos hA]
    exact addEntries_inv it.matchIds st h
  · rw [if_neg hA]
    by_cases hB : (! it.children.isEmpty) = true
    · rw [if_pos hB]
      exact collectList_inv (sortBy codeLt it.children) st h
    · rw [if_neg hB]
      exact h

theorem foldl_exportStep_inv : ∀ (items : List Item) (st : ExpSt),
    (st.urls.Nodup ∧ st.sel = st.urls ∧ ∀ u ∈ st.urls, u ∈ st.seen) →
    ((items.foldl exportStep st).urls.Nodup ∧
      (items.foldl exportStep st).sel = (items.foldl exportStep st).urls ∧
      ∀ u ∈ (items.foldl exportStep st).urls, u ∈ (items.foldl exportStep st).seen)
  | [], _, h => h
  | it :: rest, st, h =>
    foldl_exportStep_inv rest (exportStep st it) (exportStep_inv st it h)

/- ------------------------------------------------------------------ -/
/- C6                                                                  -/
/- ------------------------------------------------------------------ -/

/-- C6: for every selection, the exporter's produced entry list holds each
entry id at most once (`Nodup`), and the sequence of `select_entry (id,
true)` calls equals the produced list — one call per exported id, issued at
its first encounter, in the same order. -/
theorem c6_export_dedup (items : List Item) :
    (mimeDataExport items).urls.Nodup ∧
    (mimeDataExport items).sel = (mimeDataExport items).urls := by
  have h := foldl_exportStep_inv items { urls := [], seen := [], sel := [] }
    (by refine ⟨List.nodup_nil, rfl, ?_⟩; intro u hu; simp at hu)
  exact ⟨h.1, h.2.1⟩

/- ------------------------------------------------------------------ -/
/- search_recurse term-mask lemmas (C7).                               -/
/- ------------------------------------------------------------------ -/

theorem and_two_pow_eq_zero {m k : Nat} (h : m &&& 2 ^ k = 0) :
    m.testBit k = false := by
  by_contra hc
  rw [Bool.not_eq_false] at hc
  have hbit : (m &&& 2 ^ k).testBit k = true := by
    simp [Nat.testBit_and, hc, Nat.testBit_two_pow_self]
  rw [h] at hbit
  simp [Nat.zero_testBit] at hbit

theorem and_two_pow_ne_zero {m k : Nat} (h : ¬ m &&& 2 ^ k = 0) :
    m.testBit k = true := by
  by_contra hc
  rw [Bool.not_eq_true] at hc
  refine h (Nat.eq_of_testBit_eq ?_)
  intro i
  rw [Nat.testBit_and, Nat.zero_testBit]
  by_cases hik : i = k
  · subst hik
    simp [hc]
  · rw [Nat.testBit_two_pow_of_ne (fun hkk => hik hkk.symm)]
    simp

theorem testBit_xor_two_pow {m k i : Nat} :
    (m ^^^ 2 ^ k).testBit i = if i = k then ! m.testBit i else m.testBit i := by
  rw [Nat.testBit_xor]
  by_cases hik : i = k
  · subst hik
    rw [Nat.testBit_two_pow_self, if_pos rfl]
    cases m.testBit i <;> rfl
  · rw [Nat.testBit_two_pow_of_ne (fun h => hik h.symm), if_neg hik]
    cases m.testBit i <;> rfl

/-- Bits below the current term index are never touched by the term loop. -/
theorem termLoop_testBit_lt (fo : String) (hk : Bool) :
    ∀ (ts : List String) (k m i : Nat), i < k →
      (termLoop fo hk ts k m).testBit i = m.testBit i
  | [], _, _, _, _ => rfl
  | t :: ts, k, m, i, hik => by
    simp only [termLoop]
    by_cases h0 : m &&& 2 ^ k = 0
    · rw [if_pos h0]
      exact termLoop_testBit_lt fo hk ts (k + 1) m i (by omega)
    · rw [if_neg h0]
      by_cases hs : strstr fo t = true
      · rw [if_pos hs]
        rw [termLoop_testBit_lt fo hk ts (k + 1) _ i (by omega)]
        rw [testBit_xor_two_pow, if_neg (by omega)]
      · rw [if_neg hs]
        by_cases hh : hk = true
        · rw [if_pos hh]
          exact termLoop_testBit_lt fo hk ts (k + 1) m i (by omega)
        · rw [if_neg hh]

/-- A set bit that the term loop cleared means the corresponding term was
found in this item's folded name. -/
theorem termLoop_found (fo : String) (hk : Bool) :
    ∀ (ts : List String) (k m i : Nat),
      m.testBit i = true → (termLoop fo hk ts k m).testBit i = false →
      ∃ j, ∃ hj : j < ts.length, i = k + j ∧ strstr fo (ts.get ⟨j, hj⟩) = true
  | [], _, m, i, hm, hres => by
    simp only [termLoop] at hres
    rw [hm] at hres
    exact absurd hres (by simp)
  | t :: ts, k, m, i, hm, hres => by
    simp only [termLoop] at hres
    by_cases h0 : m &&& 2 ^ k = 0
    · rw [if_pos h0] at hres
      rcases termLoop_found fo hk ts (k + 1) m i hm hres with ⟨j, hj, hij, hstr⟩
      refine ⟨j + 1, by simpa using Nat.succ_lt_succ hj, by omega, ?_⟩
      rw [List.get_cons_succ]
      exact hstr
    · rw [if_neg h0] at hres
      have hbk : m.testBit k = true := and_two_pow_ne_zero h0
      by_cases hs : strstr fo t = true
      · rw [if_pos hs] at hres
        by_cases hik : i = k
        · subst hik
          exact ⟨0, by simp, by omega, hs⟩
        · have hm2 : (m ^^^ 2 ^ k).testBit i = true := by
            rw [testBit_xor_two_pow, if_neg hik]
            exact hm
          rcases termLoop_found fo hk ts (k + 1) _ i hm2 hres with ⟨j, hj, hij, hstr⟩
          refine ⟨j + 1, by simpa using Nat.succ_lt_succ hj, by omega, ?_⟩
          rw [List.get_cons_succ]
          exact hstr
      · rw [if_neg hs] at hres
        by_cases hh : hk = true
        · rw [if_pos hh] at hres
          by_cases hik : i = k
          · exfalso
            rw [termLoop_testBit_lt fo hk ts (k + 1) m i (by omega)] at hres
            rw [hik] at hres
            rw [hres] at hbk
            exact Bool.noConfusion hbk
          · rcases termLoop_found fo hk ts (k + 1) m i hm hres
              with ⟨j, hj, hij, hstr⟩
            refine ⟨j + 1, by simpa using Nat.succ_lt_succ hj, by omega, ?_⟩
            rw [List.get_cons_succ]
            exact hstr
        · rw [if_neg hh] at hres
          rw [hm] at hres
          exact absurd hres (by simp)

/-- A fully cleared mask means every initially pending term was found at this
very item. -/
theorem termLoop_zero_found (fo : String) (hk : Bool) (ts : List String)
    (m i : Nat) (hm : m.testBit i = true) (hres : termLoop fo hk ts 0 m = 0) :
    ∃ hj : i < ts.length, strstr fo (ts.get ⟨i, hj⟩) = true := by
  have h0 : (termLoop fo hk ts 0 m).testBit i = false := by
    rw [hres]
    exact Nat.zero_testBit i
  rcases termLoop_found fo hk ts 0 m i hm h0 with ⟨j, hj, hij, hstr⟩
  have hij2 : i = j := by omega
  subst hij2
  exact ⟨hj, hstr⟩

theorem PathTo_cons (c : Item) {dom anc : List Item} {it : Item}
    (h : PathTo dom anc it) : PathTo (c :: dom) anc it := by
  cases h with
  | base hmem => exact PathTo.base (List.mem_cons_of_mem c hmem)
  | step hmem hrest => exact PathTo.step (List.mem_cons_of_mem c hmem) hrest

/- ------------------------------------------------------------------ -/
/- C7                                                                  -/
/- ------------------------------------------------------------------ -/

/-- C7: an item collected by `search_recurse` never has exactly one child, is
never a `HiddenAlbum`, and matches all terms: it sits on a descent path from
the call's forest, along which (itself included) every term whose bit was
pending in the incoming mask occurs as a substring of some folded name. -/
theorem c7_flattened_results (terms : List String) :
    ∀ (mask : Nat) (dom : List Item), ∀ it ∈ searchRecurse terms mask dom,
      it.field ≠ SearchField.HiddenAlbum ∧ it.children.length ≠ 1 ∧
      ∃ anc, PathTo dom anc it ∧
        ∀ (i : Nat) (hi : i < terms.length), mask.testBit i = true →
          ∃ a ∈ it :: anc, strstr a.folded (terms.get ⟨i, hi⟩) = true := by
  refine searchRecurse.induct terms
    (fun mask dom => ∀ it ∈ searchRecurse terms mask dom,
      it.field ≠ SearchField.HiddenAlbum ∧ it.children.length ≠ 1 ∧
      ∃ anc, PathTo dom anc it ∧
        ∀ (i : Nat) (hi : i < terms.length), mask.testBit i = true →
          ∃ a ∈ it :: anc, strstr a.folded (terms.get ⟨i, hi⟩) = true)
    ?_ ?_
  · intro mask it hit
    rw [show searchRecurse terms mask [] = [] from by simp [searchRecurse]] at hit
    exact absurd hit (List.not_mem_nil it)
  · intro mask f n fo m v cs rest nm ih1 ih2 it hit
    simp only [searchRecurse] at hit
    rcases List.mem_append.mp hit with h12 | h3
    · rcases List.mem_append.mp h12 with h1 | h2
      · by_cases hcond : (termLoop fo (! cs.isEmpty) terms 0 mask = 0
            && cs.length ≠ 1 && f ≠ SearchField.HiddenAlbum) = true
        · rw [if_pos hcond] at h1
          rcases List.mem_singleton.mp h1 with rfl
          simp only [Bool.and_eq_true, decide_eq_true_eq] at hcond
          rcases hcond with ⟨⟨hzero, hlen⟩, hfield⟩
          refine ⟨by simpa [Item.field] using hfield,
            by simpa [Item.children] using hlen, [], PathTo.base ?_, ?_⟩
          · exact List.mem_cons_self _ _
          · intro i hi hbit
            rcases termLoop_zero_found fo (! cs.isEmpty) terms mask i hbit hzero
              with ⟨hj, hstr⟩
            exact ⟨Item.mk f n fo m v cs, List.mem_cons_self _ _, hstr⟩
        · rw [if_neg hcond] at h1
          exact absurd h1 (List.not_mem_nil it)
      · rcases ih1 it h2 with ⟨hf, hl, anc, hpath, hterm⟩
        refine ⟨hf, hl, Item.mk f n fo m v cs :: anc,
          PathTo.step (List.mem_cons_self _ _) hpath, ?_⟩
        intro i hi hbit
        by_cases hnm : nm.testBit i = true
        · rcases hterm i hi hnm with ⟨a, ha, hstr⟩
          rcases List.mem_cons.mp ha with rfl | hanc
          · exact ⟨a, List.mem_cons_self _ _, hstr⟩
          · exact ⟨a, List.mem_cons_of_mem _ (List.mem_cons_of_mem _ hanc), hstr⟩
        · rw [Bool.not_eq_true] at hnm
          rcases termLoop_found fo (! cs.isEmpty) terms 0 mask i hbit hnm
            with ⟨j, hj, hij, hstr⟩
          have hij2 : i = j := by omega
          subst hij2
          exact ⟨Item.mk f n fo m v cs,
            List.mem_cons_of_mem _ (List.mem_cons_self _ _), hstr⟩
    · rcases ih2 it h3 with ⟨hf, hl, anc, hpath, hterm⟩
      exact ⟨hf, hl, anc, PathTo_cons _ hpath, hterm⟩

/-- C7 witness: with no terms and mask 0, a childless `Genre` leaf is
collected, and indeed is no `HiddenAlbum` and has not exactly one child. -/
theorem c7_flattened_results_witness :
    (leafItem ∈ searchRecurse [] 0 [leafItem]) ∧
    leafItem.field ≠ SearchField.HiddenAlbum ∧
    leafItem.children.length ≠ 1 := by
  have hm : leafItem ∈ searchRecurse [] 0 [leafItem] := by
    rw [show searchRecurse [] 0 [leafItem] = [leafItem] from by
      simp [searchRecurse, termLoop, leafItem]]
    exact List.mem_singleton.mpr rfl
  have h := c7_flattened_results [] 0 [leafItem] leafItem hm
  exact ⟨hm, h.1, h.2.1⟩

/- ------------------------------------------------------------------ -/
/- C10                                                                 -/
/- ------------------------------------------------------------------ -/

/-- C10: for every term list and model state, `num_hidden_items` returns 0
after `do_search`: the counter is reset at the start of the pass and nothing
ever increments it. -/
theorem c10_num_hidden_after_search (terms : List String) (m : SearchModel) :
    numHiddenItems (doSearch terms m) = 0 := rfl

end FiletreeSearch
